import Mathlib

/-!
Verification of the driver-orchestration core of a multi-zone simulation code
(`SU2_CFD/include/driver_structure.hpp` and its specification).

The repository ships only the header `driver_structure.hpp`; the member
function bodies (in `driver_structure.cpp`) are not part of the source tree,
so all behavioural definitions below that concern those members are modelled
from the specification text, as indicated in each doc comment.  The one body
that is present in the header is the empty inline body of `CDriver::Run`,
which is embedded directly from the source.
-/

open scoped BigOperators

/-- Square real matrix of size `n`, the shallow embedding of a dense
`su2double` block of `nVar_mat` rows and columns. -/
abbrev Mat (n : ℕ) : Type := Matrix (Fin n) (Fin n) ℝ

/-- Error taxonomy of the spectral linear-algebra kernel.  Modelled from the
spec: the only inversion failure is `SingularMatrix` (spec section 7). -/
inductive SpectralError : Type
  | SingularMatrix : SpectralError

/-! ## Time-spectral operator (`CSpectralDriver::ComputeTimeSpectral_Operator`) -/

/-- Modelled from the spec: the body of
`CSpectralDriver::ComputeTimeSpectral_Operator` is in `driver_structure.cpp`,
which is missing from the source tree.  Entry of the time-spectral derivative
operator as a function of the (integer) zone-index difference `d` and the
`period`: the diagonal (`d = 0`) is forced to zero; for an even number of time
instances the entry uses `1/tan`, for an odd number it uses `1/sin`
(spec sections 4.2 and 8). -/
noncomputable def timeSpectralEntry (period : ℝ) (nZone : ℕ) (d : ℤ) : ℝ :=
  if d = 0 then 0
  else if nZone % 2 = 0 then
    (Real.pi / period) * (-1 : ℝ) ^ d *
      (1 / Real.tan (Real.pi * (d : ℝ) / (nZone : ℝ)))
  else
    (Real.pi / period) * (-1 : ℝ) ^ d *
      (1 / (2 * Real.sin (Real.pi * (d : ℝ) / (nZone : ℝ))))

/-- Modelled from the spec: `CSpectralDriver::ComputeTimeSpectral_Operator`
(body missing from the source tree).  Builds the dense `nZone × nZone`
time-spectral operator matrix `D`; every entry depends only on the zone-index
difference and the period (spec sections 4.2 and 8). -/
noncomputable def ComputeTimeSpectral_Operator (period : ℝ) (nZone : ℕ) :
    Mat nZone :=
  Matrix.of fun k j => timeSpectralEntry period nZone ((k : ℤ) - (j : ℤ))

/-! ## Dense linear-algebra kernel
(`CSpectralDriver::MatrixMatrixProduct`, `CSpectralDriver::InverseBlock`) -/

/-- Modelled from the spec: `CSpectralDriver::MatrixMatrixProduct` (body
missing from the source tree).  Dense product of an `nRows × nRows` matrix by
an `nRows × nCols` matrix (spec section 4.5). -/
noncomputable def MatrixMatrixProduct (nRows nCols : ℕ)
    (matrix_a : Matrix (Fin nRows) (Fin nRows) ℝ)
    (matrix_b : Matrix (Fin nRows) (Fin nCols) ℝ) :
    Matrix (Fin nRows) (Fin nCols) ℝ :=
  Matrix.of fun i j => ∑ k, matrix_a i k * matrix_b k j

/-- One Gauss-Jordan elimination step on pivot row `c` with pivot value `p`
and column multipliers `mult`: the pivot row is scaled by `1/p` and the scaled
pivot row times `mult r` is subtracted from every other row `r`. -/
noncomputable def elimStep (n : ℕ) (c : Fin n) (p : ℝ) (mult : Fin n → ℝ) (X : Mat n) :
    Mat n :=
  Matrix.of fun r j => if r = c then X c j / p else X r j - mult r * (X c j / p)

/-- Modelled from the spec: the Gauss-Jordan loop of
`CSpectralDriver::InverseBlock` (body missing from the source tree).  `fuel`
counts the columns still to be eliminated and `k` is the current pivot
column; the same row operations are applied to the working matrix `M` and to
the accumulated inverse `inv`.  A zero pivot aborts with `SingularMatrix`
(spec sections 4.5 and 7). -/
noncomputable def gjAux (n : ℕ) :
    ℕ → ℕ → Mat n → Mat n → Except SpectralError (Mat n)
  | 0, _, _, inv => Except.ok inv
  | fuel + 1, k, M, inv =>
    if h : k < n then
      if M ⟨k, h⟩ ⟨k, h⟩ = 0 then Except.error SpectralError.SingularMatrix
      else
        gjAux n fuel (k + 1)
          (elimStep n ⟨k, h⟩ (M ⟨k, h⟩ ⟨k, h⟩) (fun r => M r ⟨k, h⟩) M)
          (elimStep n ⟨k, h⟩ (M ⟨k, h⟩ ⟨k, h⟩) (fun r => M r ⟨k, h⟩) inv)
    else Except.ok inv

/-- Modelled from the spec: `CSpectralDriver::InverseBlock` (body missing from
the source tree).  Inverse of a dense square matrix by Gauss-Jordan
elimination without pivoting, starting from the identity as accumulated
inverse; fails with `SingularMatrix` if any pivot is zero (spec section 4.5). -/
noncomputable def InverseBlock (nVar_mat : ℕ) (block : Mat nVar_mat) :
    Except SpectralError (Mat nVar_mat) :=
  gjAux nVar_mat nVar_mat 0 block 1

/-! ## Harmonic-balance operator
(`CSpectralDriver::ComputeHarmonicBalance_Operator`) -/

/-- Modelled from the spec: the `i`-th of the `nZone` equally spaced sample
instances over one period used by the harmonic-balance transform
(spec section 4.3). -/
noncomputable def hbTimeInstance (period : ℝ) (nZone : ℕ) (i : Fin nZone) :
    ℝ :=
  period * (i : ℝ) / (nZone : ℝ)

/-- Modelled from the spec: the transform matrix `E` built by
`CSpectralDriver::ComputeHarmonicBalance_Operator` (body missing from the
source tree), mapping harmonic coefficients to time-domain samples.  With
`nH` nonzero harmonics the matrix is square of size `2*nH+1`; column `0` is
the zero-frequency (mean) mode, column `2k+1` is the cosine and column
`2k+2` the sine basis function of harmonic `k`, evaluated at the sample
instances (spec section 4.3). -/
noncomputable def hbTransformE (nH : ℕ) (omega_HB : Fin nH → ℝ)
    (period : ℝ) : Mat (2 * nH + 1) :=
  Matrix.of fun i c =>
    if hc : c.val = 0 then 1
    else if (c.val - 1) % 2 = 0 then
      Real.cos (omega_HB ⟨(c.val - 1) / 2, by have := c.isLt; omega⟩ *
        hbTimeInstance period (2 * nH + 1) i)
    else
      Real.sin (omega_HB ⟨(c.val - 1) / 2, by have := c.isLt; omega⟩ *
        hbTimeInstance period (2 * nH + 1) i)

/-- Modelled from the spec: the block-diagonal derivative operator `Ddiag` of
`CSpectralDriver::ComputeHarmonicBalance_Operator` (body missing from the
source tree) in the harmonic-coefficient basis: the zero-frequency row is
all-zero and each nonzero harmonic `k` contributes the 2x2 rotation-like
block `[[0, w], [-w, 0]]` scaled by its angular frequency `w` on rows and
columns `2k+1`, `2k+2` (spec section 4.3). -/
noncomputable def hbDdiag (nH : ℕ) (omega_HB : Fin nH → ℝ) :
    Mat (2 * nH + 1) :=
  Matrix.of fun r c =>
    if h0 : r.val = 0 ∨ c.val = 0 then 0
    else if (r.val - 1) / 2 = (c.val - 1) / 2 then
      if (r.val - 1) % 2 = 0 ∧ (c.val - 1) % 2 = 1 then
        omega_HB ⟨(r.val - 1) / 2, by have := r.isLt; omega⟩
      else if (r.val - 1) % 2 = 1 ∧ (c.val - 1) % 2 = 0 then
        -(omega_HB ⟨(r.val - 1) / 2, by have := r.isLt; omega⟩)
      else 0
    else 0

/-- Modelled from the spec: `CSpectralDriver::ComputeHarmonicBalance_Operator`
(body missing from the source tree).  Builds the transform matrix `E` from
sine/cosine basis functions at the sample instances, inverts it by
Gauss-Jordan elimination via `InverseBlock`, and composes
`D = E * Ddiag * E⁻¹` with exactly two calls to `MatrixMatrixProduct`;
an inversion failure is propagated (spec section 4.3). -/
noncomputable def ComputeHarmonicBalance_Operator (nH : ℕ)
    (omega_HB : Fin nH → ℝ) (period : ℝ) :
    Except SpectralError (Mat (2 * nH + 1)) :=
  match InverseBlock (2 * nH + 1) (hbTransformE nH omega_HB period) with
  | Except.error e => Except.error e
  | Except.ok invE =>
      Except.ok (MatrixMatrixProduct (2 * nH + 1) (2 * nH + 1)
        (MatrixMatrixProduct (2 * nH + 1) (2 * nH + 1)
          (hbTransformE nH omega_HB period) (hbDdiag nH omega_HB)) invE)

/-! ## FSI Block Gauss-Seidel coupling (`CFSIDriver::Run`) -/

/-- Termination status of the Block Gauss-Seidel coupling loop
(spec sections 4.6 and 7). -/
inductive BGSStatus : Type
  | Converged : BGSStatus
  | MaxIterReached : BGSStatus

/-- Modelled from the spec: the configuration and collaborators of the FSI
coupling between zone A (e.g. fluid) and zone B (e.g. structure): each zone's
opaque solve, the extraction and transfer of its coupling quantity, the
constant relaxation factor, the convergence tolerance and the iteration cap
(spec sections 4.6 and 6). -/
structure FSIProblem (A B : Type) : Type where
  solveA : A → ℝ → A
  outA : A → ℝ
  transferAB : ℝ → ℝ
  solveB : B → ℝ → B
  outB : B → ℝ
  transferBA : ℝ → ℝ
  relaxation : ℝ
  tol : ℝ
  maxIterations : ℕ

/-- Modelled from the spec: the per-step coupling state of the FSI pair: the
two zone states and the last exchanged coupling quantities in each direction
(spec section 3, FSICouplingState). -/
structure FSIState (A B : Type) : Type where
  stateA : A
  stateB : B
  qAB : ℝ
  qBA : ℝ

/-- Modelled from the spec: one pass of the BGS state machine of
`CFSIDriver::Run` (body missing from the source tree): SolveA with the latest
quantity received from B, TransferA-to-B, relaxation of the transferred value
(`new = old + relaxation * (computed - old)`), SolveB with the relaxed value,
TransferB-to-A (spec section 4.6, steps 2-5). -/
def fsiStep {A B : Type} (P : FSIProblem A B) (s : FSIState A B) :
    FSIState A B :=
  let a' := P.solveA s.stateA s.qBA
  let computed := P.transferAB (P.outA a')
  let applied := s.qAB + P.relaxation * (computed - s.qAB)
  let b' := P.solveB s.stateB applied
  let qBA' := P.transferBA (P.outB b')
  ⟨a', b', applied, qBA'⟩

/-- Modelled from the spec: the BGS convergence check compares the change in
the exchanged coupling quantity between consecutive iterations against the
tolerance (spec section 4.6, step 6). -/
noncomputable def fsiConverged {A B : Type} (tol : ℝ)
    (s s' : FSIState A B) : Bool :=
  decide (|s'.qBA - s.qBA| ≤ tol)

/-- Modelled from the spec: the BGS iteration loop of `CFSIDriver::Run` (body
missing from the source tree).  `count` is the number of passes already
performed and `fuel` the number still allowed before the cap; each pass runs
the step, then the convergence check; exhausting the cap terminates with
`MaxIterReached`, carrying the last available state and the iteration count
(spec section 4.6). -/
def bgsGo {S : Type} (stepF : S → S) (conv : S → S → Bool) :
    ℕ → ℕ → S → S × ℕ × BGSStatus
  | count, 0, s => (s, count, BGSStatus.MaxIterReached)
  | count, fuel + 1, s =>
    let s' := stepF s
    if conv s s' then (s', count + 1, BGSStatus.Converged)
    else bgsGo stepF conv (count + 1) fuel s'

/-- Modelled from the spec: `CFSIDriver::Run` (body missing from the source
tree): a Block Gauss-Seidel iteration of the two coupled zones, starting at
iteration count `0` and capped at `maxIterations` (spec sections 4.6 and 8). -/
noncomputable def CFSIDriver.Run {A B : Type} (P : FSIProblem A B)
    (s0 : FSIState A B) : FSIState A B × ℕ × BGSStatus :=
  bgsGo (fsiStep P) (fsiConverged P.tol) 0 P.maxIterations s0

/-- Trivial FSI problem on unit zone states, used as a concrete witness
input: the tolerance `-1` can never be met by an absolute value, so the
coupling never converges. -/
noncomputable def fsiUnitProblem : FSIProblem Unit Unit :=
  ⟨fun a _ => a, fun _ => 0, fun q => q, fun b _ => b, fun _ => 0,
    fun q => q, 1 / 2, -1, 3⟩

/-- Initial coupling state for the witness FSI problem. -/
def fsiUnitState : FSIState Unit Unit := ⟨(), (), 0, 0⟩

/-! ## Spectral driver run and operator caching (`CSpectralDriver::Run`,
`CSpectralDriver::SetSpectralMethod`) -/

/-- Modelled from the spec: the parameters the spectral operator depends on:
the period, the number of zones, and the ordered frequency sequence
(spec section 3, SpectralOperator). -/
structure SpectralParams : Type where
  period : ℝ
  nZone : ℕ
  freqs : List ℝ

noncomputable instance : DecidableEq SpectralParams :=
  fun _ _ => Classical.dec _

/-- A stored spectral operator: a square matrix together with its size. -/
def SpectralOpPkg : Type := Σ n : ℕ, Mat n

/-- Modelled from the spec: the operator actually built for a parameter set;
the time-spectral operator of the configured period and zone count
(spec section 4.2). -/
noncomputable def computeOperator (p : SpectralParams) : SpectralOpPkg :=
  ⟨p.nZone, ComputeTimeSpectral_Operator p.period p.nZone⟩

/-- Modelled from the spec: the caching discipline of the spectral operator:
recompute only when the parameters differ from the cached ones, otherwise
reuse the cached value; the boolean records whether a recomputation was
performed (spec section 3, SpectralOperator invariant). -/
def cachedRebuild {P M : Type} [DecidableEq P] (compute : P → M)
    (cache : Option (P × M)) (p : P) : (P × M) × Bool :=
  match cache with
  | some c => if p = c.1 then (c, false) else ((p, compute p), true)
  | none => ((p, compute p), true)

/-- Modelled from the spec: `CSpectralDriver::SetSpectralMethod` (body missing
from the source tree): obtain the spectral operator for the given parameters
through the cache (spec sections 2 and 3). -/
noncomputable def SetSpectralMethod
    (cache : Option (SpectralParams × SpectralOpPkg)) (p : SpectralParams) :
    (SpectralParams × SpectralOpPkg) × Bool :=
  cachedRebuild computeOperator cache p

/-- Modelled from the spec: `CSpectralDriver::Run` (body missing from the
source tree) first asks the engine, via `SetSpectralMethod`, to rebuild the
operator only when the parameters changed (spec section 2, control flow). -/
noncomputable def CSpectralDriver.Run
    (cache : Option (SpectralParams × SpectralOpPkg)) (p : SpectralParams) :
    (SpectralParams × SpectralOpPkg) × Bool :=
  SetSpectralMethod cache p

/-! ## Base driver (`CDriver::Run`) -/

/-- The containers passed to `CDriver::Run`, one field per parameter of the
declaration (`driver_structure.hpp`, lines 96-105); their internals are
opaque to the base driver, so each is an arbitrary type parameter. -/
structure CDriverState (ITER OUT INTEG GEOM SOLV NUM CONF SURF VOL FFD :
    Type) : Type where
  iteration_container : ITER
  output : OUT
  integration_container : INTEG
  geometry_container : GEOM
  solver_container : SOLV
  numerics_container : NUM
  config_container : CONF
  surface_movement : SURF
  grid_movement : VOL
  ffdBox : FFD

/-- Embedded from the source: the base class `CDriver::Run` has the empty
inline body `{}` (`driver_structure.hpp`, line 96-105), so it performs no
mutation at all on the containers passed to it. -/
def CDriver.Run {ITER OUT INTEG GEOM SOLV NUM CONF SURF VOL FFD : Type}
    (s : CDriverState ITER OUT INTEG GEOM SOLV NUM CONF SURF VOL FFD) :
    CDriverState ITER OUT INTEG GEOM SOLV NUM CONF SURF VOL FFD :=
  s

/-! ## Helper lemmas for the time-spectral operator -/

/-- Shifting the index difference by the (even or odd) number of zones leaves
a time-spectral entry unchanged. -/
theorem timeSpectralEntry_add_nZone (period : ℝ) (nZone : ℕ) (hn : 2 ≤ nZone)
    (d : ℤ) (hd : d ≠ 0) (hdn : d + (nZone : ℤ) ≠ 0) :
    timeSpectralEntry period nZone (d + (nZone : ℤ)) =
      timeSpectralEntry period nZone d := by
  have hnz : (nZone : ℝ) ≠ 0 := by
    have : nZone ≠ 0 := by omega
    exact_mod_cast this
  have harg : Real.pi * ((d : ℝ) + (nZone : ℝ)) / (nZone : ℝ)
      = Real.pi * (d : ℝ) / (nZone : ℝ) + Real.pi := by
    field_simp
    ring
  have hpow : (-1 : ℝ) ^ (d + (nZone : ℤ))
      = (-1 : ℝ) ^ d * (-1 : ℝ) ^ (nZone : ℕ) := by
    rw [zpow_add₀ (by norm_num : (-1 : ℝ) ≠ 0), zpow_natCast]
  rcases Nat.even_or_odd nZone with he | ho
  · have hmod : nZone % 2 = 0 := Nat.even_iff.mp he
    simp only [timeSpectralEntry, if_neg hd, if_neg hdn, if_pos hmod]
    push_cast
    rw [harg, Real.tan_periodic, hpow, Even.neg_one_pow he]
    ring
  · have hmod : ¬ nZone % 2 = 0 := by
      have := Nat.odd_iff.mp ho
      omega
    simp only [timeSpectralEntry, if_neg hd, if_neg hdn, if_neg hmod]
    push_cast
    rw [harg, Real.sin_antiperiodic, hpow, Odd.neg_one_pow ho]
    have hdiv : (1 : ℝ) / (2 * -Real.sin (Real.pi * (d : ℝ) / (nZone : ℝ)))
        = -(1 / (2 * Real.sin (Real.pi * (d : ℝ) / (nZone : ℝ)))) := by
      rw [mul_neg, div_neg]
    rw [hdiv]
    ring

/-- Two index differences that are congruent modulo `nZone` and both realised
by pairs of zone indices give the same time-spectral entry. -/
theorem timeSpectralEntry_congr (period : ℝ) (nZone : ℕ) (hn : 2 ≤ nZone)
    (d d' : ℤ) (hdlo : -(nZone : ℤ) < d) (hdhi : d < (nZone : ℤ))
    (hdlo' : -(nZone : ℤ) < d') (hdhi' : d' < (nZone : ℤ))
    (hmod : d % (nZone : ℤ) = d' % (nZone : ℤ)) :
    timeSpectralEntry period nZone d = timeSpectralEntry period nZone d' := by
  have hdvd : (nZone : ℤ) ∣ d' - d := Int.ModEq.dvd hmod
  obtain ⟨t, ht⟩ := hdvd
  have hn0 : (0 : ℤ) < (nZone : ℤ) := by
    have : 0 < nZone := by omega
    exact_mod_cast this
  have ht2 : t < 2 := by
    have h1 : (nZone : ℤ) * t < (nZone : ℤ) * 2 := by omega
    exact lt_of_mul_lt_mul_left h1 (by omega)
  have htm2 : -2 < t := by
    have h1 : (nZone : ℤ) * (-2) < (nZone : ℤ) * t := by omega
    exact lt_of_mul_lt_mul_left h1 (by omega)
  have htcases : t = -1 ∨ t = 0 ∨ t = 1 := by omega
  rcases htcases with ht1 | ht0 | ht1
  · -- here d = d' + nZone
    rw [ht1, mul_neg_one] at ht
    have hd'ne : d' ≠ 0 := by omega
    have hdn : d' + (nZone : ℤ) ≠ 0 := by omega
    have hdd : d = d' + (nZone : ℤ) := by omega
    rw [hdd, timeSpectralEntry_add_nZone period nZone hn d' hd'ne hdn]
  · rw [ht0, mul_zero] at ht
    have : d = d' := by omega
    rw [this]
  · -- here d' = d + nZone
    rw [ht1, mul_one] at ht
    have hdne : d ≠ 0 := by omega
    have hdn : d + (nZone : ℤ) ≠ 0 := by omega
    have hdd : d' = d + (nZone : ℤ) := by omega
    rw [hdd, timeSpectralEntry_add_nZone period nZone hn d hdne hdn]

/-- C4: for every `nZone ≥ 2` and `period > 0`, the time-spectral matrix `D`
produced by `ComputeTimeSpectral_Operator` satisfies: `D[i][j]` depends only
on `(i - j) mod nZone`, and `D[i][i] = 0` for every index `i`. -/
theorem computeTimeSpectral_shift_invariant (period : ℝ) (hper : 0 < period)
    (nZone : ℕ) (hn : 2 ≤ nZone) (i j i' j' : Fin nZone)
    (hmod : ((i : ℤ) - (j : ℤ)) % (nZone : ℤ)
      = ((i' : ℤ) - (j' : ℤ)) % (nZone : ℤ)) :
    ComputeTimeSpectral_Operator period nZone i j
      = ComputeTimeSpectral_Operator period nZone i' j'
    ∧ ∀ k : Fin nZone, ComputeTimeSpectral_Operator period nZone k k = 0 := by
  constructor
  · have hi := i.isLt
    have hj := j.isLt
    have hi' := i'.isLt
    have hj' := j'.isLt
    simp only [ComputeTimeSpectral_Operator, Matrix.of_apply]
    exact timeSpectralEntry_congr period nZone hn _ _
      (by omega) (by omega) (by omega) (by omega) hmod
  · intro k
    simp [ComputeTimeSpectral_Operator, timeSpectralEntry]

/-- Witness for C4 at `period = 1`, `nZone = 2`, index pairs `(0,0)`, `(1,1)`. -/
theorem computeTimeSpectral_shift_invariant_witness :
    ComputeTimeSpectral_Operator 1 2 0 0 = ComputeTimeSpectral_Operator 1 2 1 1
    ∧ ∀ k : Fin 2, ComputeTimeSpectral_Operator 1 2 k k = 0 :=
  computeTimeSpectral_shift_invariant 1 (by norm_num) 2 (by norm_num)
    0 0 1 1 (by decide)

/-- C5: for `nZone = 1` and any `period`, `ComputeTimeSpectral_Operator`
returns the `1×1` zero matrix (the single diagonal entry is forced to zero),
so the single-zone spectral operator is identically zero. -/
theorem computeTimeSpectral_single_zone_zero (period : ℝ) :
    ComputeTimeSpectral_Operator period 1 = 0
    ∧ ∀ i j : Fin 1, ComputeTimeSpectral_Operator period 1 i j = 0 := by
  have h : ∀ i j : Fin 1, ComputeTimeSpectral_Operator period 1 i j = 0 := by
    intro i j
    have hij : i = j := Subsingleton.elim i j
    rw [hij]
    simp [ComputeTimeSpectral_Operator, timeSpectralEntry]
  refine ⟨?_, h⟩
  ext i j
  simpa using h i j

/-- C6: for every `nZone` and `period > 0`, every off-diagonal entry of the
time-spectral operator is a trigonometric closed form of the zone-index
difference and the period, the odd-`nZone` case using `1/sin`, the
even-`nZone` case using `1/tan`, and the diagonal forced to zero in both
cases. -/
theorem computeTimeSpectral_closed_form (period : ℝ) (hper : 0 < period)
    (nZone : ℕ) (i j : Fin nZone) :
    (ComputeTimeSpectral_Operator period nZone i j
      = timeSpectralEntry period nZone ((i : ℤ) - (j : ℤ)))
    ∧ (i ≠ j → nZone % 2 = 0 →
        ComputeTimeSpectral_Operator period nZone i j
          = (Real.pi / period) * (-1 : ℝ) ^ ((i : ℤ) - (j : ℤ)) *
              (1 / Real.tan (Real.pi * ((((i : ℤ) - (j : ℤ)) : ℤ) : ℝ)
                / (nZone : ℝ))))
    ∧ (i ≠ j → nZone % 2 = 1 →
        ComputeTimeSpectral_Operator period nZone i j
          = (Real.pi / period) * (-1 : ℝ) ^ ((i : ℤ) - (j : ℤ)) *
              (1 / (2 * Real.sin (Real.pi * ((((i : ℤ) - (j : ℤ)) : ℤ) : ℝ)
                / (nZone : ℝ)))))
    ∧ ComputeTimeSpectral_Operator period nZone i i = 0 := by
  have hne : i ≠ j → ((i : ℤ) - (j : ℤ)) ≠ 0 := by
    intro hij hz
    exact hij (Fin.ext (by omega))
  refine ⟨rfl, ?_, ?_, ?_⟩
  · intro hij hmod
    simp only [ComputeTimeSpectral_Operator, Matrix.of_apply,
      timeSpectralEntry, if_neg (hne hij), if_pos hmod]
  · intro hij hmod
    have hnot : ¬ nZone % 2 = 0 := by omega
    simp only [ComputeTimeSpectral_Operator, Matrix.of_apply,
      timeSpectralEntry, if_neg (hne hij), if_neg hnot]
  · simp [ComputeTimeSpectral_Operator, timeSpectralEntry]

/-- Witness for C6 at `period = 1`, `nZone = 2`, indices `0` and `1`. -/
theorem computeTimeSpectral_closed_form_witness :
    ComputeTimeSpectral_Operator 1 2 0 1
      = timeSpectralEntry 1 2 (((0 : Fin 2) : ℤ) - ((1 : Fin 2) : ℤ))
    ∧ ComputeTimeSpectral_Operator 1 2 0 1
      = (Real.pi / 1) * (-1 : ℝ) ^ (((0 : Fin 2) : ℤ) - ((1 : Fin 2) : ℤ)) *
          (1 / Real.tan (Real.pi *
            (((((0 : Fin 2) : ℤ) - ((1 : Fin 2) : ℤ)) : ℤ) : ℝ) / ((2 : ℕ) : ℝ))) := by
  have h := computeTimeSpectral_closed_form 1 (by norm_num) 2 0 1
  exact ⟨h.1, h.2.1 (by decide) (by norm_num)⟩

/-! ## Helper lemmas for the linear-algebra kernel -/

/-- `MatrixMatrixProduct` computes the mathematical matrix product. -/
theorem matrixMatrixProduct_eq (nRows nCols : ℕ)
    (A : Matrix (Fin nRows) (Fin nRows) ℝ)
    (B : Matrix (Fin nRows) (Fin nCols) ℝ) :
    MatrixMatrixProduct nRows nCols A B = A * B := by
  ext i j
  rw [Matrix.mul_apply]
  rfl

/-- A Gauss-Jordan row operation commutes with right multiplication: applying
the row operation to `X` and then multiplying by `A` equals applying it to
`X * A`. -/
theorem elimStep_mul (n : ℕ) (c : Fin n) (p : ℝ) (mult : Fin n → ℝ)
    (X A : Mat n) :
    elimStep n c p mult X * A = elimStep n c p mult (X * A) := by
  ext r j
  by_cases hr : r = c
  · subst hr
    simp only [elimStep, Matrix.of_apply, Matrix.mul_apply, if_pos rfl]
    rw [Finset.sum_div]
    exact Finset.sum_congr rfl fun k _ => div_mul_eq_mul_div _ _ _
  · simp only [elimStep, Matrix.of_apply, Matrix.mul_apply, if_neg hr]
    have hterm : ∀ k : Fin n, (X r k - mult r * (X c k / p)) * A k j
        = X r k * A k j - mult r * (X c k * A k j / p) := by
      intro k
      ring
    rw [Finset.sum_congr rfl fun k _ => hterm k, Finset.sum_sub_distrib,
      ← Finset.mul_sum, ← Finset.sum_div]

/-- After eliminating pivot column `k` with a nonzero pivot, columns
`0, ..., k` of the working matrix are identity columns, provided columns
`0, ..., k-1` already were. -/
theorem elimStep_reduced (n : ℕ) (k : ℕ) (hkn : k < n) (M : Mat n)
    (hred : ∀ j : Fin n, j.val < k → ∀ r, M r j = (1 : Mat n) r j)
    (hp : M ⟨k, hkn⟩ ⟨k, hkn⟩ ≠ 0) :
    ∀ j : Fin n, j.val < k + 1 → ∀ r,
      elimStep n ⟨k, hkn⟩ (M ⟨k, hkn⟩ ⟨k, hkn⟩) (fun r => M r ⟨k, hkn⟩) M r j
        = (1 : Mat n) r j := by
  intro j hj r
  rcases Nat.lt_or_ge j.val k with hjk | hjk
  · have hcj : (⟨k, hkn⟩ : Fin n) ≠ j := by
      intro h
      have hkj : ((⟨k, hkn⟩ : Fin n) : ℕ) = (j : ℕ) := by rw [h]
      simp only [Fin.val_mk] at hkj
      omega
    have hMcj : M ⟨k, hkn⟩ j = 0 := by
      rw [hred j hjk ⟨k, hkn⟩, Matrix.one_apply_ne hcj]
    by_cases hr : r = ⟨k, hkn⟩
    · subst hr
      simp only [elimStep, Matrix.of_apply, if_pos rfl, hMcj, zero_div]
      exact (Matrix.one_apply_ne hcj).symm
    · simp only [elimStep, Matrix.of_apply, if_neg hr, hMcj, zero_div,
        mul_zero, sub_zero]
      exact hred j hjk r
  · have hjc : j = ⟨k, hkn⟩ := Fin.ext (by simp only [Fin.val_mk]; omega)
    subst hjc
    by_cases hr : r = ⟨k, hkn⟩
    · subst hr
      simp only [elimStep, Matrix.of_apply, if_pos rfl]
      rw [div_self hp, Matrix.one_apply_eq]
      simp
    · simp only [elimStep, Matrix.of_apply, if_neg hr]
      rw [div_self hp, mul_one, sub_self]
      exact (Matrix.one_apply_ne hr).symm

/-- Invariant of the Gauss-Jordan loop: if the accumulated inverse times the
original matrix equals the working matrix, the columns before the current
pivot column are already identity columns, and the loop succeeds, then the
returned matrix is a left inverse of the original. -/
theorem gjAux_ok_inverse (n : ℕ) (A : Mat n) :
    ∀ fuel k : ℕ, k + fuel = n →
    ∀ M inv invB : Mat n, inv * A = M →
    (∀ j : Fin n, j.val < k → ∀ r, M r j = (1 : Mat n) r j) →
    gjAux n fuel k M inv = Except.ok invB → invB * A = 1 := by
  intro fuel
  induction fuel with
  | zero =>
    intro k hk M inv invB hinv hred hok
    have hMone : M = 1 := by
      ext r j
      exact hred j (by omega) r
    have hinvB : inv = invB := by
      simpa [gjAux] using hok
    rw [← hinvB, hinv, hMone]
  | succ fuel ih =>
    intro k hk M inv invB hinv hred hok
    have hkn : k < n := by omega
    simp only [gjAux] at hok
    rw [dif_pos hkn] at hok
    by_cases hp : M ⟨k, hkn⟩ ⟨k, hkn⟩ = 0
    · rw [if_pos hp] at hok
      exact Except.noConfusion hok
    · rw [if_neg hp] at hok
      exact ih (k + 1) (by omega) _ _ invB
        (by rw [elimStep_mul, hinv])
        (elimStep_reduced n k hkn M hred hp)
        hok

/-- A successful `InverseBlock` returns a left inverse. -/
theorem inverseBlock_left_inverse (n : ℕ) (A invB : Mat n)
    (h : InverseBlock n A = Except.ok invB) : invB * A = 1 :=
  gjAux_ok_inverse n A n 0 (by omega) A 1 invB (Matrix.one_mul A)
    (fun j hj r => absurd hj (by omega)) h

/-- A successful `InverseBlock` returns a right inverse. -/
theorem inverseBlock_right_inverse (n : ℕ) (A invB : Mat n)
    (h : InverseBlock n A = Except.ok invB) : A * invB = 1 :=
  Matrix.mul_eq_one_comm.mpr (inverseBlock_left_inverse n A invB h)

/-- On a singular matrix, Gauss-Jordan elimination necessarily meets a zero
pivot, so `InverseBlock` fails with `SingularMatrix`. -/
theorem inverseBlock_det_zero (n : ℕ) (A : Mat n) (hA : A.det = 0) :
    InverseBlock n A = Except.error SpectralError.SingularMatrix := by
  cases hinv : InverseBlock n A with
  | error e => cases e; rfl
  | ok invB =>
    exfalso
    have h1 : invB * A = 1 := inverseBlock_left_inverse n A invB hinv
    have h2 : invB.det * A.det = 1 := by
      rw [← Matrix.det_mul, h1, Matrix.det_one]
    rw [hA, mul_zero] at h2
    exact zero_ne_one h2

/-- The Gauss-Jordan loop aborts with `SingularMatrix` as soon as the current
pivot is zero. -/
theorem gjAux_zero_pivot (n fuel k : ℕ) (hkn : k < n) (M inv : Mat n)
    (hp : M ⟨k, hkn⟩ ⟨k, hkn⟩ = 0) :
    gjAux n (fuel + 1) k M inv = Except.error SpectralError.SingularMatrix := by
  simp only [gjAux]
  rw [dif_pos hkn, if_pos hp]

/-! ## Helper lemmas for the harmonic-balance operator -/

/-- Column `0` of the transform matrix is the constant (zero-frequency) mode. -/
theorem hbTransformE_mean_col (nH : ℕ) (omega_HB : Fin nH → ℝ) (period : ℝ)
    (i c : Fin (2 * nH + 1)) (hc : c.val = 0) :
    hbTransformE nH omega_HB period i c = 1 := by
  simp only [hbTransformE, Matrix.of_apply]
  rw [dif_pos hc]

/-- Column `2k+1` of the transform matrix is the cosine mode of harmonic `k`. -/
theorem hbTransformE_cos_col (nH : ℕ) (omega_HB : Fin nH → ℝ) (period : ℝ)
    (i c : Fin (2 * nH + 1)) (k : Fin nH) (hc : c.val = 2 * k.val + 1) :
    hbTransformE nH omega_HB period i c
      = Real.cos (omega_HB k * hbTimeInstance period (2 * nH + 1) i) := by
  have hne : ¬ c.val = 0 := by omega
  have hmod : (c.val - 1) % 2 = 0 := by omega
  simp only [hbTransformE, Matrix.of_apply]
  rw [dif_neg hne, if_pos hmod]
  have hidx : ∀ h : (c.val - 1) / 2 < nH,
      (⟨(c.val - 1) / 2, h⟩ : Fin nH) = k := by
    intro h
    apply Fin.ext
    simp only [Fin.val_mk]
    omega
  rw [hidx]

/-- Column `2k+2` of the transform matrix is the sine mode of harmonic `k`. -/
theorem hbTransformE_sin_col (nH : ℕ) (omega_HB : Fin nH → ℝ) (period : ℝ)
    (i c : Fin (2 * nH + 1)) (k : Fin nH) (hc : c.val = 2 * k.val + 2) :
    hbTransformE nH omega_HB period i c
      = Real.sin (omega_HB k * hbTimeInstance period (2 * nH + 1) i) := by
  have hne : ¬ c.val = 0 := by omega
  have hmod : ¬ (c.val - 1) % 2 = 0 := by omega
  simp only [hbTransformE, Matrix.of_apply]
  rw [dif_neg hne, if_neg hmod]
  have hidx : ∀ h : (c.val - 1) / 2 < nH,
      (⟨(c.val - 1) / 2, h⟩ : Fin nH) = k := by
    intro h
    apply Fin.ext
    simp only [Fin.val_mk]
    omega
  rw [hidx]

/-- A duplicated frequency makes two cosine columns of the transform matrix
equal, so its determinant vanishes. -/
theorem hbTransformE_det_zero (nH : ℕ) (omega_HB : Fin nH → ℝ) (period : ℝ)
    (a b : Fin nH) (hab : a ≠ b) (hfreq : omega_HB a = omega_HB b) :
    (hbTransformE nH omega_HB period).det = 0 := by
  have ha : 2 * a.val + 1 < 2 * nH + 1 := by have := a.isLt; omega
  have hb : 2 * b.val + 1 < 2 * nH + 1 := by have := b.isLt; omega
  have hij : (⟨2 * a.val + 1, ha⟩ : Fin (2 * nH + 1)) ≠ ⟨2 * b.val + 1, hb⟩ := by
    intro h
    rw [Fin.mk.injEq] at h
    exact hab (Fin.ext (by omega))
  refine Matrix.det_zero_of_column_eq hij ?_
  intro r
  rw [hbTransformE_cos_col nH omega_HB period r _ a rfl,
    hbTransformE_cos_col nH omega_HB period r _ b rfl, hfreq]

/-- On zero harmonics the transform matrix is the `1×1` identity. -/
theorem hbTransformE_trivial :
    hbTransformE 0 (fun k => k.elim0) 1 = 1 := by
  ext i c
  have hc : c.val = 0 := by have := c.isLt; omega
  rw [hbTransformE_mean_col 0 _ 1 i c hc]
  have hic : i = c := Fin.ext (by have := i.isLt; have := c.isLt; omega)
  rw [hic, Matrix.one_apply_eq]

/-- `InverseBlock` succeeds on the `1×1` identity and returns it. -/
theorem inverseBlock_one_dim :
    InverseBlock 1 (1 : Mat 1) = Except.ok (1 : Mat 1) := by
  have hpiv : (1 : Mat 1) ⟨0, by omega⟩ ⟨0, by omega⟩ = 1 := Matrix.one_apply_eq _
  simp only [InverseBlock, gjAux]
  rw [dif_pos (by omega : (0:ℕ) < 1), if_neg (by rw [hpiv]; exact one_ne_zero)]
  congr 1
  ext r j
  have hr : r = (⟨0, by omega⟩ : Fin 1) := Subsingleton.elim _ _
  have hj : j = (⟨0, by omega⟩ : Fin 1) := Subsingleton.elim _ _
  subst hr hj
  simp [elimStep, hpiv, Matrix.one_apply, Fin.ext_iff]

/-- `InverseBlock` succeeds on the trivial harmonic-balance transform. -/
theorem inverseBlock_hbE_trivial :
    InverseBlock (2 * 0 + 1) (hbTransformE 0 (fun k => k.elim0) 1)
      = Except.ok (1 : Mat (2 * 0 + 1)) := by
  rw [hbTransformE_trivial]
  exact inverseBlock_one_dim

/-- C1: for every valid frequency sequence, `ComputeHarmonicBalance_Operator`
builds the operator by constructing the transform matrix `E` from sine/cosine
basis functions at the sample instances, inverting `E` by Gauss-Jordan
elimination via `InverseBlock`, building the block-diagonal derivative
operator `Ddiag` whose zero-frequency row is all-zero and whose nonzero
harmonics contribute 2x2 rotation-like blocks scaled by their angular
frequency, and composing `D = E * Ddiag * E⁻¹` with exactly two calls to
`MatrixMatrixProduct`. -/
theorem computeHarmonicBalance_construction (nH : ℕ)
    (omega_HB : Fin nH → ℝ) (period : ℝ) (invE : Mat (2 * nH + 1))
    (hinv : InverseBlock (2 * nH + 1) (hbTransformE nH omega_HB period)
      = Except.ok invE) :
    ComputeHarmonicBalance_Operator nH omega_HB period
      = Except.ok (MatrixMatrixProduct (2 * nH + 1) (2 * nH + 1)
          (MatrixMatrixProduct (2 * nH + 1) (2 * nH + 1)
            (hbTransformE nH omega_HB period) (hbDdiag nH omega_HB)) invE)
    ∧ ComputeHarmonicBalance_Operator nH omega_HB period
      = Except.ok (hbTransformE nH omega_HB period * hbDdiag nH omega_HB
          * invE)
    ∧ (∀ i c : Fin (2 * nH + 1), c.val = 0 →
        hbTransformE nH omega_HB period i c = 1)
    ∧ (∀ (i c : Fin (2 * nH + 1)) (k : Fin nH), c.val = 2 * k.val + 1 →
        hbTransformE nH omega_HB period i c
          = Real.cos (omega_HB k * hbTimeInstance period (2 * nH + 1) i))
    ∧ (∀ (i c : Fin (2 * nH + 1)) (k : Fin nH), c.val = 2 * k.val + 2 →
        hbTransformE nH omega_HB period i c
          = Real.sin (omega_HB k * hbTimeInstance period (2 * nH + 1) i))
    ∧ (∀ r c : Fin (2 * nH + 1), r.val = 0 → hbDdiag nH omega_HB r c = 0)
    ∧ (∀ (r c : Fin (2 * nH + 1)) (k : Fin nH),
        r.val = 2 * k.val + 1 → c.val = 2 * k.val + 2 →
          hbDdiag nH omega_HB r c = omega_HB k
          ∧ hbDdiag nH omega_HB c r = -(omega_HB k)
          ∧ hbDdiag nH omega_HB r r = 0
          ∧ hbDdiag nH omega_HB c c = 0) := by
  have hmain : ComputeHarmonicBalance_Operator nH omega_HB period
      = Except.ok (MatrixMatrixProduct (2 * nH + 1) (2 * nH + 1)
          (MatrixMatrixProduct (2 * nH + 1) (2 * nH + 1)
            (hbTransformE nH omega_HB period) (hbDdiag nH omega_HB)) invE) := by
    simp only [ComputeHarmonicBalance_Operator, hinv]
  refine ⟨hmain, ?_, ?_, ?_, ?_, ?_, ?_⟩
  · rw [hmain, matrixMatrixProduct_eq, matrixMatrixProduct_eq]
  · intro i c hc
    exact hbTransformE_mean_col nH omega_HB period i c hc
  · intro i c k hc
    exact hbTransformE_cos_col nH omega_HB period i c k hc
  · intro i c k hc
    exact hbTransformE_sin_col nH omega_HB period i c k hc
  · intro r c hr
    simp only [hbDdiag, Matrix.of_apply]
    rw [dif_pos (Or.inl hr)]
  · intro r c k hr hc
    have hidx : ∀ h : (r.val - 1) / 2 < nH,
        (⟨(r.val - 1) / 2, h⟩ : Fin nH) = k := by
      intro h
      apply Fin.ext
      simp only [Fin.val_mk]
      omega
    have hidxc : ∀ h : (c.val - 1) / 2 < nH,
        (⟨(c.val - 1) / 2, h⟩ : Fin nH) = k := by
      intro h
      apply Fin.ext
      simp only [Fin.val_mk]
      omega
    refine ⟨?_, ?_, ?_, ?_⟩
    · simp only [hbDdiag, Matrix.of_apply]
      rw [dif_neg (by omega), if_pos (by omega), if_pos ⟨by omega, by omega⟩,
        hidx]
    · simp only [hbDdiag, Matrix.of_apply]
      rw [dif_neg (by omega), if_pos (by omega), if_neg (by omega),
        if_pos ⟨by omega, by omega⟩, hidxc]
    · simp only [hbDdiag, Matrix.of_apply]
      rw [dif_neg (by omega)]
      have h1 : ¬((r.val - 1) % 2 = 0 ∧ (r.val - 1) % 2 = 1) := by omega
      have h2 : ¬((r.val - 1) % 2 = 1 ∧ (r.val - 1) % 2 = 0) := by omega
      simp [h1, h2]
    · simp only [hbDdiag, Matrix.of_apply]
      rw [dif_neg (by omega)]
      have h1 : ¬((c.val - 1) % 2 = 0 ∧ (c.val - 1) % 2 = 1) := by omega
      have h2 : ¬((c.val - 1) % 2 = 1 ∧ (c.val - 1) % 2 = 0) := by omega
      simp [h1, h2]

/-- Witness for C1: zero harmonics, period `1`, where the inversion succeeds
with the identity inverse. -/
theorem computeHarmonicBalance_construction_witness :
    InverseBlock (2 * 0 + 1) (hbTransformE 0 (fun k => k.elim0) 1)
      = Except.ok (1 : Mat (2 * 0 + 1))
    ∧ ComputeHarmonicBalance_Operator 0 (fun k => k.elim0) 1
      = Except.ok (hbTransformE 0 (fun k => k.elim0) 1
          * hbDdiag 0 (fun k => k.elim0) * (1 : Mat (2 * 0 + 1))) :=
  ⟨inverseBlock_hbE_trivial,
    (computeHarmonicBalance_construction 0 (fun k => k.elim0) 1 1
      inverseBlock_hbE_trivial).2.1⟩

/-- C2: for every square input matrix, `InverseBlock` fails with a
`SingularMatrix` error whenever a pivot encountered during Gauss-Jordan
elimination is zero (in particular on every singular matrix, where a zero
pivot is unavoidable, and its only failure mode is `SingularMatrix`); in
particular, calling `ComputeHarmonicBalance_Operator` with a frequency
sequence containing a duplicated frequency raises `SingularMatrix` rather
than returning an operator. -/
theorem inverseBlock_singular_behaviour :
    (∀ (n : ℕ) (A : Mat n) (e : SpectralError),
        InverseBlock n A = Except.error e → e = SpectralError.SingularMatrix)
    ∧ (∀ (n fuel k : ℕ) (h : k < n) (M inv : Mat n),
        M ⟨k, h⟩ ⟨k, h⟩ = 0 →
          gjAux n (fuel + 1) k M inv
            = Except.error SpectralError.SingularMatrix)
    ∧ (∀ (n : ℕ) (A : Mat n), A.det = 0 →
        InverseBlock n A = Except.error SpectralError.SingularMatrix)
    ∧ (∀ (nH : ℕ) (omega_HB : Fin nH → ℝ) (period : ℝ) (a b : Fin nH),
        a ≠ b → omega_HB a = omega_HB b →
          ComputeHarmonicBalance_Operator nH omega_HB period
            = Except.error SpectralError.SingularMatrix) := by
  refine ⟨?_, ?_, ?_, ?_⟩
  · intro n A e _
    cases e
    rfl
  · intro n fuel k h M inv hp
    exact gjAux_zero_pivot n fuel k h M inv hp
  · intro n A hdet
    exact inverseBlock_det_zero n A hdet
  · intro nH omega_HB period a b hab hfreq
    have hdet := hbTransformE_det_zero nH omega_HB period a b hab hfreq
    have herr := inverseBlock_det_zero _ _ hdet
    simp only [ComputeHarmonicBalance_Operator, herr]

/-- Witness for C2: the singular `1×1` zero matrix makes `InverseBlock` fail,
and a duplicated frequency (both harmonics at frequency `1`) makes
`ComputeHarmonicBalance_Operator` fail. -/
theorem inverseBlock_singular_behaviour_witness :
    InverseBlock 1 (0 : Mat 1) = Except.error SpectralError.SingularMatrix
    ∧ ComputeHarmonicBalance_Operator 2 (fun _ => 1) 1
        = Except.error SpectralError.SingularMatrix :=
  ⟨inverseBlock_singular_behaviour.2.2.1 1 0 (by simp [Matrix.det_fin_one]),
    inverseBlock_singular_behaviour.2.2.2 2 (fun _ => 1) 1 0 1
      (by decide) rfl⟩

/-- C7: for every frequency set on which the inversion succeeds, the matrix
`E` built by `ComputeHarmonicBalance_Operator` and its inverse computed by
`InverseBlock` satisfy `E * E⁻¹ = Identity`, hence entrywise within the
tolerance `1e-9`. -/
theorem hbTransformE_roundtrip (nH : ℕ) (omega_HB : Fin nH → ℝ)
    (period : ℝ) (invE : Mat (2 * nH + 1))
    (h : InverseBlock (2 * nH + 1) (hbTransformE nH omega_HB period)
      = Except.ok invE) :
    hbTransformE nH omega_HB period * invE = 1
    ∧ ∀ i j : Fin (2 * nH + 1),
        |(hbTransformE nH omega_HB period * invE) i j
          - (1 : Mat (2 * nH + 1)) i j| ≤ 1e-9 := by
  have h1 := inverseBlock_right_inverse _ _ _ h
  refine ⟨h1, ?_⟩
  intro i j
  rw [h1, sub_self, abs_zero]
  norm_num

/-- Witness for C7: zero harmonics, period `1`, identity inverse. -/
theorem hbTransformE_roundtrip_witness :
    InverseBlock (2 * 0 + 1) (hbTransformE 0 (fun k => k.elim0) 1)
      = Except.ok (1 : Mat (2 * 0 + 1))
    ∧ hbTransformE 0 (fun k => k.elim0) 1 * (1 : Mat (2 * 0 + 1)) = 1 :=
  ⟨inverseBlock_hbE_trivial,
    (hbTransformE_roundtrip 0 (fun k => k.elim0) 1 1
      inverseBlock_hbE_trivial).1⟩

/-! ## Helper lemmas for the FSI Block Gauss-Seidel loop -/

/-- If the convergence test never succeeds, the BGS loop consumes all its
fuel, iterating the step function once per unit of fuel. -/
theorem bgsGo_never_conv {S : Type} (stepF : S → S) (conv : S → S → Bool)
    (hconv : ∀ s s', conv s s' = false) :
    ∀ (fuel count : ℕ) (s : S),
      bgsGo stepF conv count fuel s
        = (stepF^[fuel] s, count + fuel, BGSStatus.MaxIterReached) := by
  intro fuel
  induction fuel with
  | zero =>
    intro count s
    simp [bgsGo]
  | succ fuel ih =>
    intro count s
    simp only [bgsGo, hconv, Bool.false_eq_true, if_false]
    rw [ih (count + 1) (stepF s), Function.iterate_succ_apply]
    have : count + 1 + fuel = count + (fuel + 1) := by omega
    rw [this]

/-- C3: for every configuration in which the coupling never converges (the
residual check on the exchanged quantity always fails), `CFSIDriver.Run`
terminates after exactly `maxIterations` iterations with status
`MaxIterReached`, and the outer step completes with the last available state,
namely the `maxIterations`-fold iterate of the coupling step. -/
theorem fsiRun_max_iter {A B : Type} (P : FSIProblem A B)
    (s0 : FSIState A B)
    (hnoconv : ∀ s s' : FSIState A B, ¬ |s'.qBA - s.qBA| ≤ P.tol) :
    CFSIDriver.Run P s0
      = ((fsiStep P)^[P.maxIterations] s0, P.maxIterations,
          BGSStatus.MaxIterReached) := by
  have hconv : ∀ s s' : FSIState A B, fsiConverged P.tol s s' = false := by
    intro s s'
    exact decide_eq_false (hnoconv s s')
  rw [CFSIDriver.Run, bgsGo_never_conv (fsiStep P) (fsiConverged P.tol) hconv]
  rw [Nat.zero_add]

/-- Witness for C3: the unit FSI problem with tolerance `-1` (never met by an
absolute value) and cap `3`. -/
theorem fsiRun_max_iter_witness :
    CFSIDriver.Run fsiUnitProblem fsiUnitState
      = ((fsiStep fsiUnitProblem)^[fsiUnitProblem.maxIterations] fsiUnitState,
          fsiUnitProblem.maxIterations, BGSStatus.MaxIterReached) :=
  fsiRun_max_iter fsiUnitProblem fsiUnitState
    (by
      intro s s' h
      have habs := abs_nonneg (s'.qBA - s.qBA)
      have htol : fsiUnitProblem.tol = -1 := rfl
      rw [htol] at h
      linarith)

/-- C9: within every outer step, the coupling pass of `CFSIDriver.Run`
executes the two zones in a fixed A-before-B order (SolveA, transfer A to B,
SolveB, transfer B to A), the value applied on the B side under relaxation
equals `old + relaxation * (computed - old)` with the configured constant
relaxation factor, and two runs of `Run` on identical inputs produce
identical iteration counts and final values. -/
theorem fsiStep_order_relaxation_deterministic {A B : Type}
    (P : FSIProblem A B) (s : FSIState A B) :
    (fsiStep P s).stateA = P.solveA s.stateA s.qBA
    ∧ (fsiStep P s).qAB
        = s.qAB + P.relaxation
            * (P.transferAB (P.outA (P.solveA s.stateA s.qBA)) - s.qAB)
    ∧ (fsiStep P s).stateB = P.solveB s.stateB (fsiStep P s).qAB
    ∧ (fsiStep P s).qBA = P.transferBA (P.outB (fsiStep P s).stateB)
    ∧ ∀ (P' : FSIProblem A B) (s' : FSIState A B), P = P' → s = s' →
        CFSIDriver.Run P s = CFSIDriver.Run P' s' := by
  refine ⟨rfl, rfl, rfl, rfl, ?_⟩
  intro P' s' hP hs
  rw [hP, hs]

/-- Witness for C9: the unit FSI problem and state; the determinism conjunct
is applied to the syntactically identical second input. -/
theorem fsiStep_order_relaxation_deterministic_witness :
    (fsiStep fsiUnitProblem fsiUnitState).qAB
      = fsiUnitState.qAB + fsiUnitProblem.relaxation
          * (fsiUnitProblem.transferAB (fsiUnitProblem.outA
              (fsiUnitProblem.solveA fsiUnitState.stateA fsiUnitState.qBA))
            - fsiUnitState.qAB)
    ∧ CFSIDriver.Run fsiUnitProblem fsiUnitState
        = CFSIDriver.Run fsiUnitProblem fsiUnitState :=
  ⟨(fsiStep_order_relaxation_deterministic fsiUnitProblem fsiUnitState).2.1,
    (fsiStep_order_relaxation_deterministic fsiUnitProblem
      fsiUnitState).2.2.2.2 fsiUnitProblem fsiUnitState rfl rfl⟩

/-- C8: the spectral operator is recomputed (flag `true`) exactly when the
parameters (period, zone count, frequency sequence) differ from the cached
ones; calling the spectral driver's `Run` (via `SetSpectralMethod`) twice
with unchanged parameters yields the identical cached matrix values with no
recomputation on the second call. -/
theorem spectralOperator_caching (c : SpectralParams × SpectralOpPkg)
    (p : SpectralParams) :
    (SetSpectralMethod (some c) p
        = if p = c.1 then (c, false) else ((p, computeOperator p), true))
    ∧ CSpectralDriver.Run none p = ((p, computeOperator p), true)
    ∧ CSpectralDriver.Run (some (CSpectralDriver.Run none p).1) p
        = ((CSpectralDriver.Run none p).1, false) := by
  refine ⟨rfl, rfl, ?_⟩
  show SetSpectralMethod (some ((p, computeOperator p))) p = _
  simp [SetSpectralMethod, cachedRebuild, CSpectralDriver.Run]

/-- C10: `CDriver::Run` on the base `CDriver` class is a no-op: its body is
empty, so it performs no zone advance and leaves every container passed to
it unchanged. -/
theorem cdriver_run_noop {ITER OUT INTEG GEOM SOLV NUM CONF SURF VOL FFD :
    Type}
    (s : CDriverState ITER OUT INTEG GEOM SOLV NUM CONF SURF VOL FFD) :
    CDriver.Run s = s
    ∧ (CDriver.Run s).iteration_container = s.iteration_container
    ∧ (CDriver.Run s).output = s.output
    ∧ (CDriver.Run s).integration_container = s.integration_container
    ∧ (CDriver.Run s).geometry_container = s.geometry_container
    ∧ (CDriver.Run s).solver_container = s.solver_container
    ∧ (CDriver.Run s).numerics_container = s.numerics_container
    ∧ (CDriver.Run s).config_container = s.config_container
    ∧ (CDriver.Run s).surface_movement = s.surface_movement
    ∧ (CDriver.Run s).grid_movement = s.grid_movement
    ∧ (CDriver.Run s).ffdBox = s.ffdBox :=
  ⟨rfl, rfl, rfl, rfl, rfl, rfl, rfl, rfl, rfl, rfl, rfl⟩
